import Mathlib

/-!
# Processed-URL ledger of `scripts/add_to_notebooklm.go`

A shallow embedding of the file-handling core of the script: `readLines`,
`getNewURLs`, `markAsProcessed` and the processing loop of `main`.

Conventions of the embedding.

* A Go `string` is a list of Unicode code points (`Str`); file contents are
  taken to be UTF-8 text, and `byteLen` is Go's `len` (the UTF-8 byte count).
* The two files the script touches form the state `FS`.  A file that does not
  exist is `none`.  A file that exists carries its content and two fault
  flags: `openErr` (`os.Open` fails) and `readErr` (the first `Read` fails).
* `bufio.Scanner` with the default split function `bufio.ScanLines` and the
  default buffer: lines end at a line feed, one trailing carriage return is
  dropped, a non-empty unterminated last line counts, and a line of
  `MaxScanTokenSize` bytes or more makes `Scan` stop with `ErrTooLong`.
* The browser driver and the outcome of each ledger write are oracles indexed
  by the position in the work queue.
-/

namespace NotebookLM

/-- Go `string`. -/
abbrev Str := List Char

/-- Go `len(s)`: the number of bytes of the UTF-8 encoding. -/
def byteLen (s : Str) : Nat := (s.map Char.utf8Size).sum

/-! ## Library functions used by the script -/

/-- Go `unicode.IsSpace`. -/
def isSpace (c : Char) : Bool :=
  let n := c.toNat
  n == 0x09 || n == 0x0A || n == 0x0B || n == 0x0C || n == 0x0D || n == 0x20
    || n == 0x85 || n == 0xA0 || n == 0x1680 || (0x2000 ≤ n && n ≤ 0x200A)
    || n == 0x2028 || n == 0x2029 || n == 0x202F || n == 0x205F || n == 0x3000

/-- Go `strings.TrimSpace`: all leading and trailing white space removed. -/
def TrimSpace (s : Str) : Str :=
  ((s.dropWhile isSpace).reverse.dropWhile isSpace).reverse

/-- Go `strings.HasPrefix`. -/
def HasPrefix (s pre : Str) : Bool := pre.isPrefixOf s

/-- Go `bufio.MaxScanTokenSize`. -/
def MaxScanTokenSize : Nat := 64 * 1024

/-- Go `bufio.dropCR`: drops one trailing carriage return. -/
def dropCR (data : Str) : Str :=
  if data.getLast? = some '\r' then data.dropLast else data

/-- The errors `readLines` can return. -/
inductive ReadErr where
  /-- `os.Open`: the file does not exist. -/
  | notExist
  /-- `os.Open`: the file exists and cannot be opened. -/
  | openFailed
  /-- `scanner.Err()`: a `Read` failed. -/
  | readFailed
  /-- `scanner.Err()`: `bufio.ErrTooLong`. -/
  | tooLong
  deriving DecidableEq, Repr

/-- The loop `for scanner.Scan() { lines = append(lines, scanner.Text()) }`
followed by `scanner.Err()`, over the unread input.  `cur` is the part of the
current line already in the scanner's buffer.  The buffer grows up to
`MaxScanTokenSize` bytes; when it is full and holds no line feed, `Scan`
returns false and `Err` is `ErrTooLong`. -/
def scanFrom (cur : Str) : Str → Except ReadErr (List Str)
  | [] =>
    if cur = [] then .ok []
    else if MaxScanTokenSize ≤ byteLen cur then .error .tooLong
    else .ok [dropCR cur]
  | c :: rest =>
    if c = '\n' then
      if MaxScanTokenSize ≤ byteLen cur then .error .tooLong
      else (scanFrom [] rest).map (fun lines => dropCR cur :: lines)
    else scanFrom (cur ++ [c]) rest

/-! ## The file system the script sees -/

/-- An existing file. -/
structure File where
  /-- The content. -/
  content : Str
  /-- Whether `os.Open` fails on it (for instance for lack of permission). -/
  openErr : Bool
  /-- Whether the first `Read` fails on it. -/
  readErr : Bool
  deriving DecidableEq, Repr

/-- A readable file with the given content. -/
def File.plain (c : Str) : File := { content := c, openErr := false, readErr := false }

/-- The files `urls.txt` and `.processed_urls.txt`; `none` is a file that does
not exist. -/
structure FS where
  /-- The file `urls.txt`. -/
  urlsFile : Option File
  /-- The file `.processed_urls.txt`. -/
  processedFile : Option File
  deriving DecidableEq, Repr

/-- The content of a file, an absent file having none. -/
def contentOf : Option File → Str
  | none => []
  | some f => f.content

/-! ## `readLines` and `getNewURLs` -/

/-- Source `readLines`. -/
def readLines (file : Option File) : Except ReadErr (List Str) :=
  match file with
  | none => .error .notExist
  | some f =>
    if f.openErr then .error .openFailed
    else if f.readErr then .error .readFailed
    else scanFrom [] f.content

/-- The errors `getNewURLs` can return. -/
inductive Error where
  /-- The wrapped error "error reading URLs file". -/
  | readingURLs (e : ReadErr)
  /-- The wrapped error "error reading processed URLs file". -/
  | readingProcessed (e : ReadErr)
  deriving DecidableEq, Repr

/-- A Go `map[string]bool`: a missing key reads as `false`. -/
abbrev StrSet := Str → Bool

/-- The statement `m[key] = true`. -/
def StrSet.set (m : StrSet) (key : Str) : StrSet :=
  fun k => if k = key then true else m k

/-- The first loop of `getNewURLs`: comments and empty lines are dropped. -/
def validLoop (allURLs : List Str) : List Str :=
  allURLs.foldl
    (fun validURLs url =>
      let url := TrimSpace url
      if url ≠ [] && !HasPrefix url ['#'] then validURLs ++ [url] else validURLs)
    []

/-- The loop of `getNewURLs` that fills the map of processed URLs. -/
def processedLoop (processed : List Str) : StrSet :=
  processed.foldl (fun processedURLs url => processedURLs.set (TrimSpace url))
    (fun _ => false)

/-- The last loop of `getNewURLs`: processed URLs are dropped. -/
def newLoop (processedURLs : StrSet) (validURLs : List Str) : List Str :=
  validURLs.foldl
    (fun newURLs url => if !processedURLs url then newURLs ++ [url] else newURLs)
    []

/-- Source `getNewURLs`. -/
def getNewURLs (fs : FS) : Except Error (List Str) :=
  match readLines fs.urlsFile with
  | .error e => .error (.readingURLs e)
  | .ok allURLs =>
    let validURLs := validLoop allURLs
    let processedURLs : Except Error StrSet :=
      if fs.processedFile.isSome then
        match readLines fs.processedFile with
        | .error e => .error (.readingProcessed e)
        | .ok processed => .ok (processedLoop processed)
      else .ok (fun _ => false)
    match processedURLs with
    | .error e => .error e
    | .ok processedURLs => .ok (newLoop processedURLs validURLs)

/-! ## `markAsProcessed` -/

/-- What the operating system does with one append to the ledger. -/
inductive WriteOutcome where
  /-- `os.OpenFile` and `WriteString` both succeed. -/
  | ok
  /-- `os.OpenFile` fails; nothing is created or written. -/
  | openFails
  /-- `WriteString` fails after the first `n` characters went out. -/
  | writeFails (n : Nat)
  deriving DecidableEq, Repr

/-- The errors `markAsProcessed` can return. -/
inductive WriteErr where
  /-- The wrapped error "error opening processed file". -/
  | opening
  /-- The wrapped error "error writing to processed file". -/
  | writing
  deriving DecidableEq, Repr

/-- The call `os.OpenFile(processedFile, O_APPEND|O_CREATE|O_WRONLY, 0644)`
when it succeeds: an absent file is created empty. -/
def openAppend : Option File → File
  | none => File.plain []
  | some f => f

/-- Source `markAsProcessed`; the second component is the returned error,
`none` for `nil`. -/
def markAsProcessed (io : WriteOutcome) (url : Str) (fs : FS) : FS × Option WriteErr :=
  match io with
  | .openFails => (fs, some .opening)
  | .writeFails n =>
    let f := openAppend fs.processedFile
    ({ fs with processedFile := some { f with content := f.content ++ (url ++ ['\n']).take n } },
      some .writing)
  | .ok =>
    let f := openAppend fs.processedFile
    ({ fs with processedFile := some { f with content := f.content ++ (url ++ ['\n']) } }, none)

/-! ## The processing loop of `main` -/

/-- The calls the loop makes, with their outcome (`true` for a `nil` error). -/
inductive Event where
  /-- A call of `addURLToNotebookLM`. -/
  | addURL (url : Str) (ok : Bool)
  /-- A call of `markAsProcessed`. -/
  | markAsProcessed (url : Str) (ok : Bool)
  deriving DecidableEq, Repr

/-- The loop `for _, url := range newURLs` of `main`.  `driver i` tells whether
`addURLToNotebookLM` succeeds for the queue entry at position `i`, `disk i` what
happens to the ledger write made for that entry.  The state is the file system
and the calls made so far. -/
def processURLs (driver : Nat → Bool) (disk : Nat → WriteOutcome) :
    Nat → List Str → FS × List Event → FS × List Event
  | _, [], st => st
  | i, url :: rest, (fs, calls) =>
    if driver i then
      let r := markAsProcessed (disk i) url fs
      processURLs driver disk (i + 1) rest
        (r.1, calls ++ [.addURL url true, .markAsProcessed url r.2.isNone])
    else
      processURLs driver disk (i + 1) rest (fs, calls ++ [.addURL url false])

/-- The URLs of the `addURLToNotebookLM` calls, in call order. -/
def addCalls : List Event → List Str
  | [] => []
  | .addURL u _ :: es => u :: addCalls es
  | .markAsProcessed _ _ :: es => addCalls es

/-- The URLs of the `markAsProcessed` calls, in call order. -/
def markCalls : List Event → List Str
  | [] => []
  | .addURL _ _ :: es => markCalls es
  | .markAsProcessed u _ :: es => u :: markCalls es

/-! ## Definitions that follow the words of the specification -/

/-- The work queue as the specification words it: trim every candidate line,
drop the empty ones and the comments, then drop those whose trimmed value is
the trimmed value of a ledger line; order is kept. -/
def resolveSpec (L P : List Str) : List Str :=
  ((L.map TrimSpace).filter (fun u => u ≠ [] ∧ ¬ HasPrefix u ['#'])).filter
    (fun u => u ∉ P.map TrimSpace)

/-- The ledger lines `getNewURLs` works with: none when the file is absent. -/
def ledgerLines (file : Option File) : Except ReadErr (List Str) :=
  match file with
  | none => .ok []
  | some f => readLines (some f)

/-- The queue entries whose submission succeeded, in queue order: the entry at
position `k` of the queue is entry number `i + k` of the run. -/
def submitted (driver : Nat → Bool) (i : Nat) (queue : List Str) : List Str :=
  ((queue.enumFrom i).filter (fun p => driver p.1)).map Prod.snd

/-- The text `u1 "\n" u2 "\n" ... un "\n"`. -/
def ledgerText (urls : List Str) : Str :=
  (urls.map (fun u => u ++ ['\n'])).flatten

/-- A ledger content to which a line can be appended: empty, or ending with a
line feed. -/
def Terminated (c : Str) : Prop := c = [] ∨ c.getLast? = some '\n'

instance (c : Str) : Decidable (Terminated c) := by
  unfold Terminated; infer_instance

/-- The whole of `getNewURLs` as the specification words it: the candidate
file is read first and must be readable, an absent ledger is an empty one, and
the result is the resolved work queue. -/
def getNewURLsSpec (fs : FS) : Except Error (List Str) :=
  match readLines fs.urlsFile with
  | .error e => .error (.readingURLs e)
  | .ok L =>
    match ledgerLines fs.processedFile with
    | .error e => .error (.readingProcessed e)
    | .ok P => .ok (resolveSpec L P)

/-- A string that reads back as itself when written as a ledger line: it holds
no line feed, `dropCR` leaves it alone, and it fits the scanner's buffer. -/
def CleanLine (u : Str) : Prop :=
  '\n' ∉ u ∧ dropCR u = u ∧ byteLen u < MaxScanTokenSize

/-- A text with a line too long for the scanner: somewhere in it stand
`MaxScanTokenSize` bytes or more with no line feed among them. -/
def LongLine (c : Str) : Prop :=
  ∃ pre l post, c = pre ++ l ++ post ∧ '\n' ∉ l ∧ MaxScanTokenSize ≤ byteLen l

/-- An existing file that `readLines` cannot read: `os.Open` fails on it, a
`Read` fails on it, or it holds a line too long for the scanner. -/
def CannotRead (f : File) : Prop :=
  f.openErr = true ∨ f.readErr = true ∨ LongLine f.content

/-- The lines of two scans, one after the other; the first error wins. -/
def appendLines (x y : Except ReadErr (List Str)) : Except ReadErr (List Str) :=
  match x with
  | .error e => .error e
  | .ok la =>
    match y with
    | .error e => .error e
    | .ok lb => .ok (la ++ lb)

/-- The ledger file after the text `x` has been appended to it. -/
def appended (file : Option File) (x : Str) : Option File :=
  some { openAppend file with content := (openAppend file).content ++ x }

/-- Successive `markAsProcessed` calls that all succeed. -/
def markAll (urls : List Str) (fs : FS) : FS :=
  urls.foldl (fun fs u => (markAsProcessed .ok u fs).1) fs

/-! ## Facts about the library functions -/

theorem TrimSpace_eq (s : Str) :
    TrimSpace s = (s.dropWhile isSpace).rdropWhile isSpace := rfl

theorem TrimSpace_idem (s : Str) : TrimSpace (TrimSpace s) = TrimSpace s := by
  have h1 : ((s.dropWhile isSpace).rdropWhile isSpace).dropWhile isSpace
      = (s.dropWhile isSpace).rdropWhile isSpace := by
    rw [List.dropWhile_eq_self_iff]
    intro hl
    obtain ⟨t, ht⟩ := List.rdropWhile_prefix isSpace (s.dropWhile isSpace)
    have hne : 0 < (s.dropWhile isSpace).length := by
      rw [← ht, List.length_append]; omega
    have h0 := List.dropWhile_get_zero_not isSpace s hne
    have e : ((s.dropWhile isSpace).rdropWhile isSpace).get ⟨0, hl⟩
        = (s.dropWhile isSpace).get ⟨0, hne⟩ := by
      simp only [List.get_eq_getElem]
      exact (List.rdropWhile_prefix isSpace (s.dropWhile isSpace)).getElem hl
    rw [e]; exact h0
  rw [TrimSpace_eq (TrimSpace s), TrimSpace_eq s, h1, List.rdropWhile_idempotent]

theorem TrimSpace_subset (s : Str) : TrimSpace s ⊆ s := by
  rw [TrimSpace_eq]
  exact fun c hc =>
    List.dropWhile_subset isSpace ((List.rdropWhile_prefix isSpace _).subset hc)

theorem TrimSpace_getLast (s : Str) (c : Char)
    (h : (TrimSpace s).getLast? = some c) : isSpace c = false := by
  rw [TrimSpace_eq] at h
  have hne : (s.dropWhile isSpace).rdropWhile isSpace ≠ [] := by
    intro h0; rw [h0] at h; simp at h
  have := List.rdropWhile_last_not isSpace (s.dropWhile isSpace) hne
  rw [List.getLast?_eq_getLast _ hne] at h
  simp only [Option.some.injEq] at h
  rw [h] at this
  simpa using this

theorem dropCR_TrimSpace (s : Str) : dropCR (TrimSpace s) = TrimSpace s := by
  unfold dropCR
  split
  · next h =>
    have := TrimSpace_getLast s _ h
    exact absurd this (by decide)
  · rfl

theorem byteLen_append (a b : Str) : byteLen (a ++ b) = byteLen a + byteLen b := by
  simp [byteLen]

theorem byteLen_TrimSpace_le (s : Str) : byteLen (TrimSpace s) ≤ byteLen s := by
  rw [TrimSpace_eq]
  obtain ⟨t, ht⟩ := List.rdropWhile_prefix isSpace (s.dropWhile isSpace)
  obtain ⟨r, hr⟩ := List.dropWhile_suffix isSpace (l := s)
  have h1 := congrArg byteLen ht
  have h2 := congrArg byteLen hr
  rw [byteLen_append] at h1 h2
  omega

/-! ## The loops of `getNewURLs` as filters -/

theorem validLoop_eq (L : List Str) :
    validLoop L = (L.map TrimSpace).filter (fun u => u ≠ [] ∧ ¬ HasPrefix u ['#']) := by
  unfold validLoop
  suffices h : ∀ (acc : List Str),
      L.foldl (fun validURLs url =>
        let url := TrimSpace url
        if url ≠ [] && !HasPrefix url ['#'] then validURLs ++ [url] else validURLs) acc
      = acc ++ (L.map TrimSpace).filter (fun u => u ≠ [] ∧ ¬ HasPrefix u ['#']) by
    simpa using h []
  induction L with
  | nil => intro acc; simp
  | cons l L ih =>
    intro acc
    simp only [List.foldl_cons, List.map_cons, List.filter_cons]
    rw [ih]
    by_cases h1 : TrimSpace l = [] <;> by_cases h2 : HasPrefix (TrimSpace l) ['#'] = true <;>
      simp [h1, h2]

theorem processedLoop_eq (P : List Str) (u : Str) :
    processedLoop P u = true ↔ u ∈ P.map TrimSpace := by
  unfold processedLoop
  suffices h : ∀ (m : StrSet),
      P.foldl (fun processedURLs url => processedURLs.set (TrimSpace url)) m u = true
      ↔ (m u = true ∨ u ∈ P.map TrimSpace) by
    simpa using h (fun _ => false)
  induction P with
  | nil => intro m; simp
  | cons p P ih =>
    intro m
    simp only [List.foldl_cons, List.map_cons, List.mem_cons]
    rw [ih]
    unfold StrSet.set
    by_cases h : u = TrimSpace p <;> simp [h]

theorem newLoop_eq (m : StrSet) (V : List Str) :
    newLoop m V = V.filter (fun u => !m u) := by
  unfold newLoop
  suffices h : ∀ (acc : List Str),
      V.foldl (fun newURLs url => if !m url then newURLs ++ [url] else newURLs) acc
      = acc ++ V.filter (fun u => !m u) by
    simpa using h []
  induction V with
  | nil => intro acc; simp
  | cons v V ih =>
    intro acc
    simp only [List.foldl_cons, List.filter_cons]
    rw [ih]
    cases m v <;> simp

theorem newLoop_processedLoop (P V : List Str) :
    newLoop (processedLoop P) V = V.filter (fun u => u ∉ P.map TrimSpace) := by
  rw [newLoop_eq]
  apply List.filter_congr
  intro u _
  by_cases h : u ∈ P.map TrimSpace
  · simp [h, (processedLoop_eq P u).2 h]
  · have : processedLoop P u = false := by
      cases hp : processedLoop P u
      · rfl
      · exact absurd ((processedLoop_eq P u).1 hp) h
    simp [h, this]

/-! ## Facts about the line scanner -/

theorem dropCR_subset (s : Str) : dropCR s ⊆ s := by
  unfold dropCR
  split
  · exact (List.dropLast_sublist s).subset
  · exact fun _ h => h

theorem byteLen_dropCR_le (s : Str) : byteLen (dropCR s) ≤ byteLen s := by
  unfold dropCR
  split
  · obtain ⟨t, ht⟩ := List.dropLast_prefix s
    have := congrArg byteLen ht
    rw [byteLen_append] at this
    omega
  · exact Nat.le_refl _

theorem scanFrom_nil (cur : Str) :
    scanFrom cur [] =
      if cur = [] then .ok []
      else if MaxScanTokenSize ≤ byteLen cur then .error .tooLong
      else .ok [dropCR cur] := rfl

theorem scanFrom_lf (cur rest : Str) :
    scanFrom cur ('\n' :: rest) =
      if MaxScanTokenSize ≤ byteLen cur then .error .tooLong
      else (scanFrom [] rest).map (fun lines => dropCR cur :: lines) := by
  rw [scanFrom]; simp

theorem scanFrom_other (cur rest : Str) (c : Char) (hc : c ≠ '\n') :
    scanFrom cur (c :: rest) = scanFrom (cur ++ [c]) rest := by
  rw [scanFrom]; simp [hc]

/-- A line followed by its line feed is scanned as one line. -/
theorem scanFrom_line (u : Str) (hu : '\n' ∉ u) (cur rest : Str) :
    scanFrom cur (u ++ '\n' :: rest) =
      if MaxScanTokenSize ≤ byteLen (cur ++ u) then .error .tooLong
      else (scanFrom [] rest).map (fun lines => dropCR (cur ++ u) :: lines) := by
  induction u generalizing cur with
  | nil => rw [List.nil_append, scanFrom_lf, List.append_nil]
  | cons c u ih =>
    have hc : c ≠ '\n' := fun h => hu (by simp [h])
    have hu2 : '\n' ∉ u := fun h => hu (by simp [h])
    rw [List.cons_append, scanFrom_other _ _ _ hc, ih hu2]
    simp

/-- An unterminated last line is scanned as one line when it is not empty. -/
theorem scanFrom_tail (u : Str) (hu : '\n' ∉ u) (cur : Str) :
    scanFrom cur u =
      if cur ++ u = [] then .ok []
      else if MaxScanTokenSize ≤ byteLen (cur ++ u) then .error .tooLong
      else .ok [dropCR (cur ++ u)] := by
  induction u generalizing cur with
  | nil => rw [scanFrom_nil, List.append_nil]
  | cons c u ih =>
    have hc : c ≠ '\n' := fun h => hu (by simp [h])
    have hu2 : '\n' ∉ u := fun h => hu (by simp [h])
    rw [scanFrom_other _ _ _ hc, ih hu2]
    simp

theorem appendLines_ok_nil (y : Except ReadErr (List Str)) :
    appendLines (.ok []) y = y := by
  cases y <;> rfl

theorem appendLines_cons (l : Str) (x y : Except ReadErr (List Str)) :
    appendLines (x.map (fun lines => l :: lines)) y =
      (appendLines x y).map (fun lines => l :: lines) := by
  cases x <;> cases y <;> rfl

theorem scanFrom_append_aux (b : Str) (a : Str) (ha : a.getLast? = some '\n') (cur : Str) :
    scanFrom cur (a ++ b) = appendLines (scanFrom cur a) (scanFrom [] b) := by
  induction a generalizing cur with
  | nil => simp at ha
  | cons c a ih =>
    by_cases hc : c = '\n'
    · subst hc
      rw [List.cons_append, scanFrom_lf, scanFrom_lf]
      by_cases hlen : MaxScanTokenSize ≤ byteLen cur
      · simp [hlen, appendLines]
      · simp only [hlen, if_false]
        cases a with
        | nil =>
          rw [List.nil_append, scanFrom_nil, if_pos rfl, appendLines_cons, appendLines_ok_nil]
        | cons d a =>
          have ha2 : (d :: a).getLast? = some '\n' := by
            rw [List.getLast?_cons_cons] at ha; exact ha
          rw [ih ha2, appendLines_cons]
    · cases a with
      | nil => simp at ha; exact absurd ha hc
      | cons d a =>
        have ha2 : (d :: a).getLast? = some '\n' := by
          rw [List.getLast?_cons_cons] at ha; exact ha
        rw [List.cons_append, scanFrom_other _ _ _ hc, scanFrom_other _ _ _ hc, ih ha2]

/-- Scanning a text that is empty or ends with a line feed, followed by more
text, gives the lines of the first followed by the lines of the second. -/
theorem scanFrom_append (a b : Str) (ha : Terminated a) :
    scanFrom [] (a ++ b) = appendLines (scanFrom [] a) (scanFrom [] b) := by
  rcases ha with h | h
  · subst h
    rw [List.nil_append, scanFrom_nil, if_pos rfl, appendLines_ok_nil]
  · exact scanFrom_append_aux b a h []

theorem scanFrom_noLF (data : Str) :
    ∀ (cur : Str) (ls : List Str), scanFrom cur data = .ok ls → '\n' ∉ cur →
      ∀ l ∈ ls, '\n' ∉ l := by
  induction data with
  | nil =>
    intro cur ls h hcur l hl
    rw [scanFrom_nil] at h
    split at h
    · cases h; simp at hl
    · split at h
      · cases h
      · cases h
        simp only [List.mem_singleton] at hl
        subst hl
        exact fun hm => hcur (dropCR_subset cur hm)
  | cons c data ih =>
    intro cur ls h hcur l hl
    by_cases hc : c = '\n'
    · subst hc
      rw [scanFrom_lf] at h
      split at h
      · cases h
      · cases hr : scanFrom [] data with
        | error e => rw [hr] at h; cases h
        | ok lines =>
          rw [hr] at h
          cases h
          rcases List.mem_cons.1 hl with h1 | h1
          · subst h1
            exact fun hm => hcur (dropCR_subset cur hm)
          · exact ih [] lines hr (by simp) l h1
    · rw [scanFrom_other _ _ _ hc] at h
      refine ih (cur ++ [c]) ls h ?_ l hl
      intro hm
      rcases List.mem_append.1 hm with h1 | h1
      · exact hcur h1
      · simp only [List.mem_singleton] at h1
        exact hc h1.symm

theorem scanFrom_short (data : Str) :
    ∀ (cur : Str) (ls : List Str), scanFrom cur data = .ok ls →
      ∀ l ∈ ls, byteLen l < MaxScanTokenSize := by
  induction data with
  | nil =>
    intro cur ls h l hl
    rw [scanFrom_nil] at h
    split at h
    · cases h; simp at hl
    · split at h
      · cases h
      · next hlen =>
        cases h
        simp only [List.mem_singleton] at hl
        subst hl
        have := byteLen_dropCR_le cur
        omega
  | cons c data ih =>
    intro cur ls h l hl
    by_cases hc : c = '\n'
    · subst hc
      rw [scanFrom_lf] at h
      split at h
      · cases h
      · next hlen =>
        cases hr : scanFrom [] data with
        | error e => rw [hr] at h; cases h
        | ok lines =>
          rw [hr] at h
          cases h
          rcases List.mem_cons.1 hl with h1 | h1
          · subst h1
            have := byteLen_dropCR_le cur
            omega
          · exact ih [] lines hr l h1
    · rw [scanFrom_other _ _ _ hc] at h
      exact ih (cur ++ [c]) ls h l hl

/-! ## `getNewURLs` refines its specification -/

theorem ledgerLines_some (f : File) : ledgerLines (some f) = readLines (some f) := rfl

theorem getNewURLs_eq_spec (fs : FS) : getNewURLs fs = getNewURLsSpec fs := by
  unfold getNewURLs getNewURLsSpec
  cases hL : readLines fs.urlsFile with
  | error e => rfl
  | ok L =>
    cases hp : fs.processedFile with
    | none =>
      simp only [Option.isSome_none, Bool.false_eq_true, if_false, ledgerLines]
      have : newLoop (fun _ => false) (validLoop L) = resolveSpec L [] := by
        have h := newLoop_processedLoop [] (validLoop L)
        rw [validLoop_eq] at h ⊢
        exact h
      rw [this]
    | some f =>
      simp only [Option.isSome_some, if_true, ledgerLines]
      cases hP : readLines (some f) with
      | error e => rfl
      | ok P =>
        simp only []
        rw [newLoop_processedLoop, validLoop_eq]
        rfl

theorem getNewURLs_ok (fs : FS) (L P : List Str)
    (hL : readLines fs.urlsFile = .ok L) (hP : ledgerLines fs.processedFile = .ok P) :
    getNewURLs fs = .ok (resolveSpec L P) := by
  rw [getNewURLs_eq_spec, getNewURLsSpec, hL]
  simp only []
  rw [hP]

theorem getNewURLs_ok_inv (fs : FS) (r : List Str) (h : getNewURLs fs = .ok r) :
    ∃ L P, readLines fs.urlsFile = .ok L ∧ ledgerLines fs.processedFile = .ok P ∧
      r = resolveSpec L P := by
  rw [getNewURLs_eq_spec, getNewURLsSpec] at h
  cases hL : readLines fs.urlsFile with
  | error e => rw [hL] at h; cases h
  | ok L =>
    rw [hL] at h
    simp only [] at h
    cases hP : ledgerLines fs.processedFile with
    | error e => rw [hP] at h; cases h
    | ok P =>
      rw [hP] at h
      cases h
      exact ⟨L, P, rfl, rfl, rfl⟩

theorem mem_resolveSpec (L P : List Str) (u : Str) :
    u ∈ resolveSpec L P ↔
      (∃ l ∈ L, TrimSpace l = u) ∧ u ≠ [] ∧ HasPrefix u ['#'] = false ∧
        u ∉ P.map TrimSpace := by
  unfold resolveSpec
  simp only [List.mem_filter, List.mem_map, decide_eq_true_eq, Bool.not_eq_true]
  tauto

theorem readLines_noLF (file : Option File) (L : List Str) (h : readLines file = .ok L) :
    ∀ l ∈ L, '\n' ∉ l := by
  cases file with
  | none => cases h
  | some f =>
    unfold readLines at h
    simp only [] at h
    split at h
    · cases h
    · split at h
      · cases h
      · exact scanFrom_noLF f.content [] L h (by simp)

theorem readLines_short (file : Option File) (L : List Str) (h : readLines file = .ok L) :
    ∀ l ∈ L, byteLen l < MaxScanTokenSize := by
  cases file with
  | none => cases h
  | some f =>
    unfold readLines at h
    simp only [] at h
    split at h
    · cases h
    · split at h
      · cases h
      · exact scanFrom_short f.content [] L h

/-- Every entry of a resolved queue is a clean, trimmed line. -/
theorem resolveSpec_clean (file : Option File) (L P : List Str)
    (hL : readLines file = .ok L) (u : Str) (hu : u ∈ resolveSpec L P) :
    CleanLine u ∧ TrimSpace u = u := by
  obtain ⟨⟨l, hl, rfl⟩, -, -, -⟩ := (mem_resolveSpec L P u).1 hu
  refine ⟨⟨?_, dropCR_TrimSpace l, ?_⟩, TrimSpace_idem l⟩
  · exact fun hm => readLines_noLF file L hL l hl (TrimSpace_subset l hm)
  · exact Nat.lt_of_le_of_lt (byteLen_TrimSpace_le l) (readLines_short file L hL l hl)

/-! ## The ledger after appends -/

theorem markAsProcessed_ok (u : Str) (fs : FS) :
    markAsProcessed .ok u fs =
      ({ fs with processedFile := appended fs.processedFile (u ++ ['\n']) }, none) := rfl

theorem markAsProcessed_success (io : WriteOutcome) (u : Str) (fs : FS)
    (h : (markAsProcessed io u fs).2 = none) : io = .ok := by
  cases io with
  | ok => rfl
  | openFails => simp [markAsProcessed] at h
  | writeFails n => simp [markAsProcessed] at h

theorem content_openAppend (file : Option File) :
    (openAppend file).content = contentOf file := by
  cases file <;> rfl

theorem contentOf_appended (file : Option File) (x : Str) :
    contentOf (appended file x) = contentOf file ++ x := by
  simp [appended, contentOf, content_openAppend]

theorem appended_appended (file : Option File) (x y : Str) :
    appended (appended file x) y = appended file (x ++ y) := by
  simp [appended, openAppend, List.append_assoc]

theorem ledgerText_cons (u : Str) (S : List Str) :
    ledgerText (u :: S) = u ++ '\n' :: ledgerText S := by
  simp [ledgerText]

theorem markAll_cons (u : Str) (S : List Str) (fs : FS) :
    markAll (u :: S) fs = markAll S (markAsProcessed .ok u fs).1 := rfl

theorem markAll_urlsFile (S : List Str) (fs : FS) :
    (markAll S fs).urlsFile = fs.urlsFile := by
  induction S generalizing fs with
  | nil => rfl
  | cons u S ih => rw [markAll_cons, ih, markAsProcessed_ok]

theorem markAll_processedFile (S : List Str) (fs : FS) (hS : S ≠ []) :
    (markAll S fs).processedFile = appended fs.processedFile (ledgerText S) := by
  induction S generalizing fs with
  | nil => exact absurd rfl hS
  | cons u S ih =>
    rw [markAll_cons]
    cases S with
    | nil =>
      rw [markAsProcessed_ok, ledgerText_cons]
      simp [markAll, ledgerText]
    | cons v S =>
      rw [ih _ (by simp), markAsProcessed_ok]
      simp only []
      rw [appended_appended, ledgerText_cons u]
      simp

theorem markAll_content (S : List Str) (fs : FS) :
    contentOf (markAll S fs).processedFile = contentOf fs.processedFile ++ ledgerText S := by
  cases S with
  | nil => simp [markAll, ledgerText]
  | cons u S => rw [markAll_processedFile _ _ (by simp), contentOf_appended]

theorem terminated_append (a b : Str) (ha : Terminated a) (hb : Terminated b) :
    Terminated (a ++ b) := by
  rcases hb with hb | hb
  · subst hb; simpa using ha
  · right; rw [List.getLast?_append, hb]; rfl

theorem terminated_line (u : Str) : Terminated (u ++ ['\n']) :=
  Or.inr (List.getLast?_concat u)

theorem terminated_ledgerText (S : List Str) : Terminated (ledgerText S) := by
  induction S with
  | nil => left; rfl
  | cons u S ih =>
    have : ledgerText (u :: S) = (u ++ ['\n']) ++ ledgerText S := by simp [ledgerText]
    rw [this]
    exact terminated_append _ _ (terminated_line u) ih

/-- Clean lines written one after the other are read back as they are. -/
theorem scanFrom_ledgerText (S : List Str) (hS : ∀ u ∈ S, CleanLine u) :
    scanFrom [] (ledgerText S) = .ok S := by
  induction S with
  | nil => rfl
  | cons u S ih =>
    obtain ⟨h1, h2, h3⟩ := hS u (by simp)
    rw [ledgerText_cons, scanFrom_line u h1, List.nil_append, if_neg (Nat.not_le.2 h3), h2,
      ih (fun v hv => hS v (by simp [hv]))]
    rfl

/-- The lines of the ledger after `x` has been appended to a ledger that is
absent, empty or ends with a line feed. -/
theorem ledgerLines_appended (file : Option File) (x : Str)
    (hT : Terminated (contentOf file)) :
    ledgerLines (appended file x) = appendLines (ledgerLines file) (scanFrom [] x) := by
  cases file with
  | none =>
    show scanFrom [] ([] ++ x) = appendLines (.ok []) (scanFrom [] x)
    rw [appendLines_ok_nil, List.nil_append]
  | some f =>
    show readLines (some { f with content := f.content ++ x }) =
      appendLines (readLines (some f)) (scanFrom [] x)
    unfold readLines
    simp only []
    by_cases ho : f.openErr = true
    · simp [ho, appendLines]
    · by_cases hr : f.readErr = true
      · simp [ho, hr, appendLines]
      · simp only [ho, hr, if_false, Bool.false_eq_true]
        exact scanFrom_append f.content x hT

theorem appendLines_ok (x y : Except ReadErr (List Str)) (l : List Str)
    (h : appendLines x y = .ok l) : ∃ la lb, x = .ok la ∧ y = .ok lb ∧ l = la ++ lb := by
  cases x with
  | error e => cases h
  | ok la =>
    cases y with
    | error e => cases h
    | ok lb => cases h; exact ⟨la, lb, rfl, rfl, rfl⟩

/-! ## The processing loop -/

theorem submitted_nil (driver : Nat → Bool) (i : Nat) : submitted driver i [] = [] := rfl

theorem submitted_cons (driver : Nat → Bool) (i : Nat) (u : Str) (q : List Str) :
    submitted driver i (u :: q) =
      if driver i then u :: submitted driver (i + 1) q else submitted driver (i + 1) q := by
  unfold submitted
  rw [List.enumFrom_cons, List.filter_cons]
  cases driver i <;> simp

theorem submitted_subset (driver : Nat → Bool) (i : Nat) (q : List Str) :
    submitted driver i q ⊆ q := by
  induction q generalizing i with
  | nil => simp [submitted_nil]
  | cons u q ih =>
    rw [submitted_cons]
    split
    · exact List.cons_subset_cons u (ih (i + 1))
    · exact fun v hv => List.mem_cons_of_mem u (ih (i + 1) hv)

theorem addCalls_append (a b : List Event) : addCalls (a ++ b) = addCalls a ++ addCalls b := by
  induction a with
  | nil => rfl
  | cons e a ih => cases e <;> simp [addCalls, ih]

theorem markCalls_append (a b : List Event) :
    markCalls (a ++ b) = markCalls a ++ markCalls b := by
  induction a with
  | nil => rfl
  | cons e a ih => cases e <;> simp [markCalls, ih]

theorem processURLs_nil (driver : Nat → Bool) (disk : Nat → WriteOutcome) (i : Nat)
    (st : FS × List Event) : processURLs driver disk i [] st = st := by
  rw [processURLs]

theorem processURLs_cons (driver : Nat → Bool) (disk : Nat → WriteOutcome) (i : Nat)
    (u : Str) (q : List Str) (fs : FS) (calls : List Event) :
    processURLs driver disk i (u :: q) (fs, calls) =
      if driver i then
        processURLs driver disk (i + 1) q
          ((markAsProcessed (disk i) u fs).1,
            calls ++ [.addURL u true, .markAsProcessed u (markAsProcessed (disk i) u fs).2.isNone])
      else processURLs driver disk (i + 1) q (fs, calls ++ [.addURL u false]) := by
  rw [processURLs]

theorem processURLs_addCalls (driver : Nat → Bool) (disk : Nat → WriteOutcome)
    (q : List Str) (i : Nat) (fs : FS) (calls : List Event) :
    addCalls (processURLs driver disk i q (fs, calls)).2 = addCalls calls ++ q := by
  induction q generalizing i fs calls with
  | nil => simp [processURLs_nil]
  | cons u q ih =>
    rw [processURLs_cons]
    split
    · rw [ih, addCalls_append]; simp [addCalls]
    · rw [ih, addCalls_append]; simp [addCalls]

theorem processURLs_markCalls (driver : Nat → Bool) (disk : Nat → WriteOutcome)
    (q : List Str) (i : Nat) (fs : FS) (calls : List Event) :
    markCalls (processURLs driver disk i q (fs, calls)).2 =
      markCalls calls ++ submitted driver i q := by
  induction q generalizing i fs calls with
  | nil => simp [processURLs_nil, submitted_nil]
  | cons u q ih =>
    rw [processURLs_cons, submitted_cons]
    split
    · rw [ih, markCalls_append]; simp [markCalls]
    · rw [ih, markCalls_append]; simp [markCalls]

theorem processURLs_fs (driver : Nat → Bool) (disk : Nat → WriteOutcome)
    (q : List Str) (i : Nat) (fs : FS) (calls : List Event)
    (hd : ∀ k, k < q.length → driver (i + k) = true → disk (i + k) = .ok) :
    (processURLs driver disk i q (fs, calls)).1 = markAll (submitted driver i q) fs := by
  induction q generalizing i fs calls with
  | nil => simp [processURLs_nil, submitted_nil, markAll]
  | cons u q ih =>
    have hd2 : ∀ k, k < q.length → driver (i + 1 + k) = true → disk (i + 1 + k) = .ok := by
      intro k hk h
      have e : i + 1 + k = i + (k + 1) := by omega
      rw [e] at h ⊢
      exact hd (k + 1) (by simp; omega) h
    rw [processURLs_cons, submitted_cons]
    by_cases h : driver i = true
    · have h0 : disk i = .ok := hd 0 (by simp) h
      simp only [h, if_true]
      rw [ih _ _ _ hd2, markAll_cons, h0]
    · simp only [h, if_false, Bool.false_eq_true]
      exact ih _ _ _ hd2

theorem processURLs_urlsFile (driver : Nat → Bool) (disk : Nat → WriteOutcome)
    (q : List Str) (i : Nat) (fs : FS) (calls : List Event) :
    (processURLs driver disk i q (fs, calls)).1.urlsFile = fs.urlsFile := by
  induction q generalizing i fs calls with
  | nil => simp [processURLs_nil]
  | cons u q ih =>
    rw [processURLs_cons]
    split
    · rw [ih]; cases disk i <;> rfl
    · rw [ih]

theorem count_map_TrimSpace (L : List Str) (u : Str) :
    (L.map TrimSpace).count u = (L.filter (fun l => TrimSpace l = u)).length := by
  induction L with
  | nil => rfl
  | cons l L ih =>
    rw [List.map_cons, List.count_cons, List.filter_cons, ih]
    by_cases h : TrimSpace l = u <;> simp [h]

theorem readLines_plain (c : Str) : readLines (some (File.plain c)) = scanFrom [] c := rfl

theorem getNewURLs_of_urls_error (fs : FS) (e : ReadErr)
    (he : readLines fs.urlsFile = .error e) : getNewURLs fs = .error (.readingURLs e) := by
  rw [getNewURLs_eq_spec, getNewURLsSpec, he]

theorem scanFrom_error_tooLong (data : Str) :
    ∀ (cur : Str) (e : ReadErr), scanFrom cur data = .error e → e = .tooLong := by
  induction data with
  | nil =>
    intro cur e h
    rw [scanFrom_nil] at h
    split at h
    · cases h
    · split at h
      · cases h; rfl
      · cases h
  | cons c data ih =>
    intro cur e h
    by_cases hc : c = '\n'
    · subst hc
      rw [scanFrom_lf] at h
      split at h
      · cases h; rfl
      · cases hd : scanFrom [] data with
        | error e2 =>
          rw [hd] at h
          cases h
          exact ih [] _ hd
        | ok ls => rw [hd] at h; cases h
    · rw [scanFrom_other _ _ _ hc] at h
      exact ih _ _ h

theorem maxScanTokenSize_pos : 0 < MaxScanTokenSize := by decide

/-- A scan that fails has met a stretch too long for the buffer. -/
theorem scanFrom_error_longLine (data : Str) :
    ∀ (cur : Str) (e : ReadErr), scanFrom cur data = .error e → '\n' ∉ cur →
      ∃ pre l post, cur ++ data = pre ++ l ++ post ∧ '\n' ∉ l ∧
        MaxScanTokenSize ≤ byteLen l := by
  induction data with
  | nil =>
    intro cur e h hcur
    rw [scanFrom_nil] at h
    split at h
    · cases h
    · split at h
      · next hlen => exact ⟨[], cur, [], by simp, hcur, hlen⟩
      · cases h
  | cons c data ih =>
    intro cur e h hcur
    by_cases hc : c = '\n'
    · subst hc
      rw [scanFrom_lf] at h
      split at h
      · next hlen => exact ⟨[], cur, '\n' :: data, by simp, hcur, hlen⟩
      · cases hd : scanFrom [] data with
        | error e2 =>
          obtain ⟨pre, l, post, h1, h2, h3⟩ := ih [] e2 hd (by simp)
          refine ⟨cur ++ '\n' :: pre, l, post, ?_, h2, h3⟩
          rw [List.nil_append] at h1
          rw [h1]
          simp
        | ok ls => rw [hd] at h; cases h
    · rw [scanFrom_other _ _ _ hc] at h
      have hcur2 : '\n' ∉ cur ++ [c] := by
        intro hm
        rcases List.mem_append.1 hm with h1 | h1
        · exact hcur h1
        · simp only [List.mem_singleton] at h1
          exact hc h1.symm
      obtain ⟨pre, l, post, h1, h2, h3⟩ := ih (cur ++ [c]) e h hcur2
      refine ⟨pre, l, post, ?_, h2, h3⟩
      rw [← h1]
      simp

/-- A stretch too long for the buffer makes the scan fail. -/
theorem scanFrom_of_longLine (data : Str) :
    ∀ (cur pre l post : Str), cur ++ data = pre ++ l ++ post → '\n' ∉ cur → '\n' ∉ l →
      MaxScanTokenSize ≤ byteLen l → scanFrom cur data = .error .tooLong := by
  induction data with
  | nil =>
    intro cur pre l post h _ _ hlen
    have hb := congrArg byteLen h
    rw [List.append_nil, byteLen_append, byteLen_append] at hb
    have hpos := maxScanTokenSize_pos
    have hne : cur ≠ [] := by
      intro h0
      rw [h0] at hb
      have : byteLen ([] : Str) = 0 := rfl
      omega
    rw [scanFrom_nil, if_neg hne, if_pos (by omega)]
  | cons c data ih =>
    intro cur pre l post h hcur hl hlen
    by_cases hc : c = '\n'
    · subst hc
      rw [scanFrom_lf]
      by_cases hcl : MaxScanTokenSize ≤ byteLen cur
      · rw [if_pos hcl]
      · rw [if_neg hcl]
        have hpos := maxScanTokenSize_pos
        have hrest : ∃ a, data = a ++ l ++ post := by
          rw [List.append_assoc] at h
          rcases List.append_eq_append_iff.1 h with ⟨a, -, h2⟩ | ⟨a, h1, h2⟩
          · cases a with
            | nil =>
              cases l with
              | nil =>
                have : byteLen ([] : Str) = 0 := rfl
                omega
              | cons x l =>
                simp only [List.nil_append, List.cons_append, List.cons.injEq] at h2
                exact absurd (by simp [← h2.1]) hl
            | cons y a =>
              simp only [List.cons_append, List.cons.injEq] at h2
              exact ⟨a, by rw [h2.2, List.append_assoc]⟩
          · rcases List.append_eq_append_iff.1 h2 with ⟨b, h3, -⟩ | ⟨b, h3, h4⟩
            · have hb := congrArg byteLen h1
              rw [h3, byteLen_append, byteLen_append] at hb
              omega
            · cases b with
              | nil =>
                rw [List.append_nil] at h3
                have hb := congrArg byteLen h1
                rw [← h3, byteLen_append] at hb
                omega
              | cons y b =>
                simp only [List.cons_append, List.cons.injEq] at h4
                exact absurd (by rw [h3, ← h4.1]; simp) hl
        obtain ⟨a, ha⟩ := hrest
        rw [ih [] a l post (by rw [List.nil_append]; exact ha) (by simp) hl hlen]
        rfl
    · rw [scanFrom_other _ _ _ hc]
      refine ih (cur ++ [c]) pre l post (by rw [← h]; simp) ?_ hl hlen
      intro hm
      rcases List.mem_append.1 hm with h1 | h1
      · exact hcur h1
      · simp only [List.mem_singleton] at h1
        exact hc h1.symm

/-- The scan of a text fails exactly when the text holds a line too long for
the scanner. -/
theorem scanFrom_error_iff (c : Str) : (∃ e, scanFrom [] c = .error e) ↔ LongLine c := by
  constructor
  · rintro ⟨e, he⟩
    obtain ⟨pre, l, post, h1, h2, h3⟩ := scanFrom_error_longLine c [] e he (by simp)
    exact ⟨pre, l, post, by rw [← h1, List.nil_append], h2, h3⟩
  · rintro ⟨pre, l, post, h1, h2, h3⟩
    exact ⟨_, scanFrom_of_longLine c [] pre l post (by rw [List.nil_append]; exact h1)
      (by simp) h2 h3⟩

theorem readLines_error_iff (file : Option File) :
    (∃ e, readLines file = .error e) ↔ (file = none ∨ ∃ f, file = some f ∧ CannotRead f) := by
  cases file with
  | none => simp [readLines]
  | some f =>
    unfold readLines CannotRead
    simp only []
    by_cases ho : f.openErr = true
    · simp [ho]
    · by_cases hr : f.readErr = true
      · simp [ho, hr]
      · simp only [ho, hr, if_false, Bool.false_eq_true, false_or, reduceCtorEq,
          Option.some.injEq, exists_eq_left']
        exact scanFrom_error_iff f.content

theorem resolveSpec_congr (L P Q : List Str)
    (h : ∀ u, u ∈ P.map TrimSpace ↔ u ∈ Q.map TrimSpace) :
    resolveSpec L P = resolveSpec L Q := by
  unfold resolveSpec
  apply List.filter_congr
  intro u _
  simp only [h u]

theorem resolveSpec_append (L P S : List Str) (hS : ∀ u ∈ S, TrimSpace u = u) :
    resolveSpec L (P ++ S) = (resolveSpec L P).filter (fun u => u ∉ S) := by
  have hmap : S.map TrimSpace = S := by
    conv_rhs => rw [← List.map_id S]
    exact List.map_congr_left hS
  unfold resolveSpec
  generalize (L.map TrimSpace).filter (fun u => u ≠ [] ∧ ¬ HasPrefix u ['#']) = V
  rw [List.filter_filter]
  apply List.filter_congr
  intro u _
  rw [List.map_append, hmap]
  simp only [List.mem_append, not_or, Bool.decide_and, Bool.and_comm]

theorem ledgerLines_of_ne_none (file : Option File) (h : file ≠ none) :
    ledgerLines file = readLines file := by
  cases file with
  | none => exact absurd rfl h
  | some f => rfl

/-- The ledger lines after clean lines have been appended to a ledger that is
absent, empty or ends with a line feed. -/
theorem ledgerLines_markAll (S : List Str) (fs : FS) (P : List Str)
    (hT : Terminated (contentOf fs.processedFile))
    (hP : ledgerLines fs.processedFile = .ok P) (hS : ∀ u ∈ S, CleanLine u) :
    ledgerLines (markAll S fs).processedFile = .ok (P ++ S) := by
  cases S with
  | nil => simpa [markAll] using hP
  | cons u S =>
    rw [markAll_processedFile _ _ (by simp), ledgerLines_appended _ _ hT, hP,
      scanFrom_ledgerText _ hS]
    rfl


theorem byteLen_replicate (n : Nat) : byteLen (List.replicate n 'a') = n := by
  induction n with
  | zero => rfl
  | succ n ih =>
    rw [List.replicate_succ]
    show byteLen (['a'] ++ List.replicate n 'a') = n + 1
    rw [byteLen_append, ih]
    show 1 + n = n + 1
    omega

/-- Reading back a ledger that starts with a line too long for the scanner. -/
theorem readLines_long (u : Str) (h1 : '\n' ∉ u) (h2 : MaxScanTokenSize ≤ byteLen u) :
    readLines (markAsProcessed .ok u { urlsFile := none, processedFile := none }).1.processedFile
      = .error .tooLong := by
  show scanFrom [] ([] ++ (u ++ ['\n'])) = .error .tooLong
  rw [List.nil_append, scanFrom_line u h1 [] [], List.nil_append, if_pos h2]


/-! ## The claims -/

/-- C1. For the candidate lines `L` of `urls.txt` and the ledger lines `P` of
`.processed_urls.txt` (none when the file is absent), `getNewURLs` returns
exactly the trimmed candidate lines that are neither empty nor comments and whose
trimmed value is not the trimmed value of a ledger line, in their order in `L`;
every successful call is of this form.  The candidate lines `"  "`, `""`,
`"# note"`, `"https://a"` against an empty ledger give `["https://a"]`. -/
theorem getNewURLs_resolves :
    (∀ (fs : FS) (L P : List Str), readLines fs.urlsFile = .ok L →
        ledgerLines fs.processedFile = .ok P → getNewURLs fs = .ok (resolveSpec L P)) ∧
    (∀ (fs : FS) (r : List Str), getNewURLs fs = .ok r →
        ∃ L P, readLines fs.urlsFile = .ok L ∧ ledgerLines fs.processedFile = .ok P ∧
          r = resolveSpec L P) ∧
    readLines (some (File.plain "  \n\n# note\nhttps://a\n".toList)) =
      .ok ["  ".toList, "".toList, "# note".toList, "https://a".toList] ∧
    getNewURLs
        { urlsFile := some (File.plain "  \n\n# note\nhttps://a\n".toList),
          processedFile := some (File.plain []) } = .ok ["https://a".toList] :=
  ⟨getNewURLs_ok, getNewURLs_ok_inv, rfl, rfl⟩

/-- Witness of C1: the general statement applied to the example file. -/
theorem getNewURLs_resolves_witness :
    getNewURLs
        { urlsFile := some (File.plain "  \n\n# note\nhttps://a\n".toList),
          processedFile := none } =
      .ok (resolveSpec ["  ".toList, "".toList, "# note".toList, "https://a".toList] []) ∧
    resolveSpec ["  ".toList, "".toList, "# note".toList, "https://a".toList] [] =
      ["https://a".toList] :=
  ⟨getNewURLs_resolves.1 _ _ _ rfl rfl, by decide⟩

/-- C4. With the ledger file absent `getNewURLs` returns what it returns with
the ledger file present, readable and empty: the same list, or the same failure;
and with the ledger absent every failure is a failure to read the candidate
file. -/
theorem absent_ledger_is_empty_ledger (urls : Option File) :
    getNewURLs { urlsFile := urls, processedFile := none } =
      getNewURLs { urlsFile := urls, processedFile := some (File.plain []) } ∧
    (∀ e, getNewURLs { urlsFile := urls, processedFile := none } = .error e →
      ∃ e', readLines urls = .error e' ∧ e = .readingURLs e') := by
  constructor
  · rw [getNewURLs_eq_spec, getNewURLs_eq_spec]
    rfl
  · intro e h
    rw [getNewURLs_eq_spec, getNewURLsSpec] at h
    cases hL : readLines urls with
    | error e' =>
      simp only [hL] at h
      cases h
      exact ⟨e', rfl, rfl⟩
    | ok L =>
      simp only [hL, ledgerLines] at h
      cases h

/-- C5. Duplicates in the candidate list are kept: a non-empty string `u` that
is no comment and is the trimmed value of no ledger line occurs in the result of
`getNewURLs` as many times as there are candidate lines whose trimmed value is
`u`.  The candidates `https://a`, `https://b`, `https://a` against an empty
ledger resolve to themselves. -/
theorem duplicates_preserved :
    (∀ (fs : FS) (L P r : List Str) (u : Str), readLines fs.urlsFile = .ok L →
        ledgerLines fs.processedFile = .ok P → getNewURLs fs = .ok r →
        u ≠ [] → HasPrefix u ['#'] = false → (∀ p ∈ P, TrimSpace p ≠ u) →
        r.count u = (L.filter (fun l => TrimSpace l = u)).length) ∧
    getNewURLs
        { urlsFile := some (File.plain "https://a\nhttps://b\nhttps://a\n".toList),
          processedFile := some (File.plain []) } =
      .ok ["https://a".toList, "https://b".toList, "https://a".toList] := by
  refine ⟨?_, rfl⟩
  intro fs L P r u hL hP hr h1 h2 h3
  rw [getNewURLs_ok fs L P hL hP] at hr
  cases hr
  unfold resolveSpec
  rw [List.count_filter, List.count_filter, count_map_TrimSpace]
  · simp [h1, h2]
  · simp only [List.mem_map, not_exists, not_and, decide_eq_true_eq]
    exact fun p hp => h3 p hp

/-- Witness of C5: the general statement applied to the example file. -/
theorem duplicates_preserved_witness :
    (["https://a".toList, "https://b".toList, "https://a".toList].count "https://a".toList) =
      ((["https://a".toList, "https://b".toList, "https://a".toList].filter
        (fun l => TrimSpace l = "https://a".toList)).length) ∧
    (["https://a".toList, "https://b".toList, "https://a".toList].count "https://a".toList)
      = 2 :=
  ⟨duplicates_preserved.1
      { urlsFile := some (File.plain "https://a\nhttps://b\nhttps://a\n".toList),
        processedFile := none }
      ["https://a".toList, "https://b".toList, "https://a".toList] []
      ["https://a".toList, "https://b".toList, "https://a".toList] "https://a".toList
      rfl rfl rfl (by decide) (by decide) (by simp), by decide⟩

/-- Counterexample to C6 as stated: the candidate file exists, `os.Open` and
every `Read` succeed on it, the ledger is absent, and the file is one line of
65536 letters `a`.  No input fails to open and no scan reports an I/O error, yet
`getNewURLs` returns an error and no list: the scanner stops with
`bufio.ErrTooLong`. -/
theorem getNewURLs_fails_counterexample :
    (File.plain (List.replicate 65536 'a')).openErr = false ∧
    (File.plain (List.replicate 65536 'a')).readErr = false ∧
    getNewURLs
        { urlsFile := some (File.plain (List.replicate 65536 'a')), processedFile := none }
      = .error (.readingURLs .tooLong) := by
  refine ⟨rfl, rfl, ?_⟩
  have h : scanFrom [] (List.replicate 65536 'a') = .error .tooLong := by
    refine scanFrom_of_longLine _ [] [] (List.replicate 65536 'a') []
      (List.append_nil _).symm (List.not_mem_nil _) ?_ ?_
    · rw [List.mem_replicate]
      exact fun h => absurd h.2 (by decide)
    · rw [byteLen_replicate]
      exact Nat.le_refl _
  exact getNewURLs_of_urls_error _ _ ((readLines_plain _).trans h)

/-- C6, amended. `getNewURLs` fails exactly when an input cannot be read: it
returns an error, and no list, when the candidate file does not exist, cannot be
opened, has a `Read` fail during the scan or holds a line of 65536 bytes or more
(the scanner then stops with `bufio.ErrTooLong`), or when the ledger file exists
and cannot be read for one of those reasons; in every other case, an absent
ledger included, it returns a list and no error.  The candidate file is read
first: when it cannot be read the error is about it, whatever the state of the
ledger, and a missing candidate file fails for every ledger. -/
theorem getNewURLs_fails_iff (fs : FS) :
    ((∃ e, getNewURLs fs = .error e) ↔
      ((fs.urlsFile = none ∨ ∃ f, fs.urlsFile = some f ∧ CannotRead f) ∨
        (∃ f, fs.processedFile = some f ∧ CannotRead f))) ∧
    ((∃ r, getNewURLs fs = .ok r) ↔
      ¬ ((fs.urlsFile = none ∨ ∃ f, fs.urlsFile = some f ∧ CannotRead f) ∨
        (∃ f, fs.processedFile = some f ∧ CannotRead f))) ∧
    (∀ e, readLines fs.urlsFile = .error e → getNewURLs fs = .error (.readingURLs e)) ∧
    (∀ ledger : Option File,
      getNewURLs { urlsFile := none, processedFile := ledger } =
        .error (.readingURLs .notExist)) := by
  have key : (∃ e, getNewURLs fs = .error e) ↔
      ((fs.urlsFile = none ∨ ∃ f, fs.urlsFile = some f ∧ CannotRead f) ∨
        (∃ f, fs.processedFile = some f ∧ CannotRead f)) := by
    rw [← readLines_error_iff]
    rw [getNewURLs_eq_spec, getNewURLsSpec]
    cases hL : readLines fs.urlsFile with
    | error e => simp
    | ok L =>
      cases hp : fs.processedFile with
      | none => simp [ledgerLines]
      | some f =>
        have hf := readLines_error_iff (some f)
        simp only [reduceCtorEq, Option.some.injEq, exists_eq_left', false_or] at hf
        simp only [ledgerLines, reduceCtorEq, exists_false, false_or, Option.some.injEq,
          exists_eq_left', ← hf]
        cases hP : readLines (some f) with
        | error e => simp
        | ok P => simp
  refine ⟨key, ?_, ?_, fun _ => rfl⟩
  · rw [← key]
    cases getNewURLs fs <;> simp
  · exact getNewURLs_of_urls_error fs

/-- Witness of C6: a candidate file of two lines and a ledger of one line are
both readable, and `getNewURLs` returns a list. -/
theorem getNewURLs_fails_iff_witness :
    getNewURLs
        { urlsFile := some (File.plain "https://a\nhttps://b\n".toList),
          processedFile := some (File.plain "https://a\n".toList) }
      = .ok ["https://b".toList] ∧
    ¬ ((some (File.plain "https://a\nhttps://b\n".toList) = none ∨
        ∃ f, some (File.plain "https://a\nhttps://b\n".toList) = some f ∧ CannotRead f) ∨
      (∃ f, some (File.plain "https://a\n".toList) = some f ∧ CannotRead f)) :=
  ⟨rfl, (getNewURLs_fails_iff
      { urlsFile := some (File.plain "https://a\nhttps://b\n".toList),
        processedFile := some (File.plain "https://a\n".toList) }).2.1.1 ⟨_, rfl⟩⟩

/-- C7. The ledger is append-only: a successful `markAsProcessed u` leaves the
ledger file present with content exactly the prior content (empty for an absent
file) followed by `u` and one line feed; the candidate file is not touched; and
after any call, successful or not, the prior content is a prefix of the new
content.  The call succeeds when the operating system lets it. -/
theorem markAsProcessed_appends (fs : FS) (io : WriteOutcome) (u : Str) :
    ((markAsProcessed io u fs).2 = none →
      (markAsProcessed io u fs).1.processedFile.isSome = true ∧
      contentOf (markAsProcessed io u fs).1.processedFile =
        contentOf fs.processedFile ++ u ++ ['\n']) ∧
    (markAsProcessed io u fs).1.urlsFile = fs.urlsFile ∧
    contentOf fs.processedFile <+: contentOf (markAsProcessed io u fs).1.processedFile ∧
    (markAsProcessed .ok u fs).2 = none := by
  cases io with
  | ok =>
    refine ⟨fun _ => ⟨rfl, ?_⟩, rfl, ?_, rfl⟩
    · rw [markAsProcessed_ok]
      simp [contentOf_appended]
    · rw [markAsProcessed_ok]
      simp [contentOf_appended]
  | openFails =>
    refine ⟨fun h => ?_, rfl, List.prefix_refl _, rfl⟩
    simp [markAsProcessed] at h
  | writeFails n =>
    refine ⟨fun h => ?_, rfl, ?_, rfl⟩
    · simp [markAsProcessed] at h
    · simp [markAsProcessed, contentOf, content_openAppend]

/-- Witness of C7: appending to a ledger that holds one line. -/
theorem markAsProcessed_appends_witness :
    contentOf (markAsProcessed .ok "https://b".toList
        { urlsFile := none, processedFile := some (File.plain "https://a\n".toList) }).1.processedFile
      = "https://a\nhttps://b\n".toList :=
  ((markAsProcessed_appends
      { urlsFile := none, processedFile := some (File.plain "https://a\n".toList) }
      .ok "https://b".toList).1 rfl).2

/-- Counterexample to C2 as stated: the ledger holds `https://x` without a line
feed after it.  `markAsProcessed "https://a"` succeeds, the ledger then reads as
the single line `https://xhttps://a`, and `getNewURLs` still returns
`https://a`. -/
theorem markAsProcessed_excludes_counterexample :
    TrimSpace "https://a".toList = "https://a".toList ∧
    (markAsProcessed .ok "https://a".toList
      { urlsFile := some (File.plain "https://a\n".toList),
        processedFile := some (File.plain "https://x".toList) }).2 = none ∧
    readLines (markAsProcessed .ok "https://a".toList
      { urlsFile := some (File.plain "https://a\n".toList),
        processedFile := some (File.plain "https://x".toList) }).1.processedFile
      = .ok ["https://xhttps://a".toList] ∧
    getNewURLs (markAsProcessed .ok "https://a".toList
      { urlsFile := some (File.plain "https://a\n".toList),
        processedFile := some (File.plain "https://x".toList) }).1
      = .ok ["https://a".toList] :=
  ⟨by decide, rfl, rfl, rfl⟩

/-- C2, amended. When the ledger file is absent, empty or ends with a line feed
and `u` is an already trimmed URL, then after `markAsProcessed u` has returned
without error a successful `getNewURLs` returns a list that does not contain
`u`.  The candidates `https://a`, `https://b` with an empty ledger, after
`markAsProcessed "https://a"`, resolve to `["https://b"]`. -/
theorem markAsProcessed_excludes :
    (∀ (fs : FS) (io : WriteOutcome) (u : Str) (r : List Str),
        Terminated (contentOf fs.processedFile) → TrimSpace u = u →
        (markAsProcessed io u fs).2 = none →
        getNewURLs (markAsProcessed io u fs).1 = .ok r → u ∉ r) ∧
    getNewURLs (markAsProcessed .ok "https://a".toList
      { urlsFile := some (File.plain "https://a\nhttps://b\n".toList),
        processedFile := some (File.plain []) }).1 = .ok ["https://b".toList] := by
  refine ⟨?_, rfl⟩
  intro fs io u r hT _ hm hr hu
  have hio := markAsProcessed_success io u fs hm
  subst hio
  rw [markAsProcessed_ok] at hr
  obtain ⟨L, P, hL, hP, rfl⟩ := getNewURLs_ok_inv _ r hr
  simp only [] at hL hP
  rw [ledgerLines_appended _ _ hT] at hP
  obtain ⟨la, lb, -, hb, rfl⟩ := appendLines_ok _ _ _ hP
  obtain ⟨hclean, htrim⟩ := resolveSpec_clean _ L _ hL u hu
  obtain ⟨h1, h2, h3⟩ := hclean
  rw [scanFrom_line u h1, List.nil_append, if_neg (Nat.not_le.2 h3), h2, scanFrom_nil,
    if_pos rfl] at hb
  cases hb
  have hmem := ((mem_resolveSpec L _ u).1 hu).2.2.2
  apply hmem
  rw [List.mem_map]
  exact ⟨u, by simp, htrim⟩

/-- Witness of C2: the amended statement applied to the example. -/
theorem markAsProcessed_excludes_witness :
    "https://a".toList ∉ ["https://b".toList] :=
  markAsProcessed_excludes.1
    { urlsFile := some (File.plain "https://a\nhttps://b\n".toList), processedFile := none }
    .ok "https://a".toList ["https://b".toList] (by decide) (by decide) rfl rfl

/-- Counterexample to C3 as stated: with the ledger `https://x` (no line feed
after it) and the candidate `https://a`, one `markAsProcessed "https://a"`
leaves `https://a` in the work queue and two remove it. -/
theorem markAsProcessed_twice_counterexample :
    getNewURLs (markAsProcessed .ok "https://a".toList
      { urlsFile := some (File.plain "https://a\n".toList),
        processedFile := some (File.plain "https://x".toList) }).1
      = .ok ["https://a".toList] ∧
    getNewURLs (markAsProcessed .ok "https://a".toList
      (markAsProcessed .ok "https://a".toList
        { urlsFile := some (File.plain "https://a\n".toList),
          processedFile := some (File.plain "https://x".toList) }).1).1
      = .ok [] :=
  ⟨rfl, rfl⟩

/-- C3, amended. When the ledger file is absent, empty or ends with a line
feed, two successful calls of `markAsProcessed u` followed by `getNewURLs` give
what one successful call followed by `getNewURLs` gives: ledger membership is a
set test. -/
theorem markAsProcessed_twice (fs : FS) (io1 io2 : WriteOutcome) (u : Str)
    (hT : Terminated (contentOf fs.processedFile))
    (h1 : (markAsProcessed io1 u fs).2 = none)
    (h2 : (markAsProcessed io2 u (markAsProcessed io1 u fs).1).2 = none) :
    getNewURLs (markAsProcessed io2 u (markAsProcessed io1 u fs).1).1 =
      getNewURLs (markAsProcessed io1 u fs).1 := by
  have e1 := markAsProcessed_success io1 u fs h1
  subst e1
  have e2 := markAsProcessed_success io2 u _ h2
  subst e2
  rw [getNewURLs_eq_spec, getNewURLs_eq_spec, markAsProcessed_ok, markAsProcessed_ok]
  unfold getNewURLsSpec
  simp only []
  cases hL : readLines fs.urlsFile with
  | error e => rfl
  | ok L =>
    simp only []
    have hT1 : Terminated (contentOf (appended fs.processedFile (u ++ ['\n']))) := by
      rw [contentOf_appended]
      exact terminated_append _ _ hT (terminated_line u)
    rw [ledgerLines_appended _ _ hT1, ledgerLines_appended _ _ hT]
    cases ledgerLines fs.processedFile with
    | error e => rfl
    | ok P =>
      cases scanFrom [] (u ++ ['\n']) with
      | error e => rfl
      | ok Y =>
        simp only [appendLines]
        rw [resolveSpec_congr L (P ++ Y ++ Y) (P ++ Y)]
        intro v
        simp only [List.map_append, List.mem_append]
        tauto

/-- Witness of C3: the amended statement on an empty ledger. -/
theorem markAsProcessed_twice_witness :
    getNewURLs (markAsProcessed .ok "https://a".toList
      (markAsProcessed .ok "https://a".toList
        { urlsFile := some (File.plain "https://a\nhttps://b\n".toList),
          processedFile := some (File.plain []) }).1).1 =
    getNewURLs (markAsProcessed .ok "https://a".toList
        { urlsFile := some (File.plain "https://a\nhttps://b\n".toList),
          processedFile := some (File.plain []) }).1 :=
  markAsProcessed_twice _ .ok .ok _ (by decide) rfl rfl

/-- Counterexample to C8 as stated: the submission of `https://a` succeeds and
`markAsProcessed` is called, `os.OpenFile` fails, `main` logs a warning, and no
line has been appended to the ledger, which is still absent. -/
theorem processURLs_marks_counterexample :
    submitted (fun _ => true) 0 ["https://a".toList] = ["https://a".toList] ∧
    (processURLs (fun _ => true) (fun _ => .openFails) 0 ["https://a".toList]
      ({ urlsFile := some (File.plain "https://a\n".toList), processedFile := none }, [])).2
      = [.addURL "https://a".toList true, .markAsProcessed "https://a".toList false] ∧
    (processURLs (fun _ => true) (fun _ => .openFails) 0 ["https://a".toList]
      ({ urlsFile := some (File.plain "https://a\n".toList), processedFile := none }, [])).1
      = { urlsFile := some (File.plain "https://a\n".toList), processedFile := none } :=
  ⟨rfl, rfl, rfl⟩

/-- C8, amended. In the processing loop every queue entry is submitted exactly
once, in queue order, whatever the outcomes; `markAsProcessed` is called exactly
for the entries whose submission returned no error, in queue order; and when
each of those ledger writes succeeds, the ledger ends as its prior content
followed by exactly those URLs, one line each, in that order, so that a failed
submission appends nothing.  The candidate file is not touched. -/
theorem processURLs_marks (driver : Nat → Bool) (disk : Nat → WriteOutcome)
    (queue : List Str) (fs : FS) :
    addCalls (processURLs driver disk 0 queue (fs, [])).2 = queue ∧
    markCalls (processURLs driver disk 0 queue (fs, [])).2 = submitted driver 0 queue ∧
    ((∀ i, i < queue.length → driver i = true → disk i = .ok) →
      contentOf (processURLs driver disk 0 queue (fs, [])).1.processedFile =
        contentOf fs.processedFile ++ ledgerText (submitted driver 0 queue)) ∧
    (processURLs driver disk 0 queue (fs, [])).1.urlsFile = fs.urlsFile := by
  refine ⟨?_, ?_, ?_, processURLs_urlsFile _ _ _ _ _ _⟩
  · rw [processURLs_addCalls]; rfl
  · rw [processURLs_markCalls]; rfl
  · intro hd
    rw [processURLs_fs driver disk queue 0 fs [] (by simpa using hd), markAll_content]

/-- Witness of C8: three queued URLs, the second submission fails. -/
theorem processURLs_marks_witness :
    contentOf (processURLs (fun i => i != 1) (fun _ => .ok) 0
      ["https://a".toList, "https://b".toList, "https://c".toList]
      ({ urlsFile := none, processedFile := some (File.plain "https://x\n".toList) }, [])).1.processedFile
      = "https://x\n".toList ++
          ledgerText (submitted (fun i => i != 1) 0
            ["https://a".toList, "https://b".toList, "https://c".toList]) ∧
    "https://x\n".toList ++
          ledgerText (submitted (fun i => i != 1) 0
            ["https://a".toList, "https://b".toList, "https://c".toList])
      = "https://x\nhttps://a\nhttps://c\n".toList :=
  ⟨(processURLs_marks (fun i => i != 1) (fun _ => .ok)
      ["https://a".toList, "https://b".toList, "https://c".toList]
      { urlsFile := none, processedFile := some (File.plain "https://x\n".toList) }).2.2.1
      (fun _ _ _ => rfl), by decide⟩

/-- Counterexample to C9 as stated: the ledger holds `https://x` without a line
feed after it and three distinct URLs are queued.  The submissions of the first
and the third succeed, that of the second fails, every ledger write succeeds;
the ledger then reads `https://xhttps://a`, `https://c`, and the next
`getNewURLs` returns the first URL along with the second. -/
theorem partial_run_recovery_counterexample :
    getNewURLs
      { urlsFile := some (File.plain "https://a\nhttps://b\nhttps://c\n".toList),
        processedFile := some (File.plain "https://x".toList) }
      = .ok ["https://a".toList, "https://b".toList, "https://c".toList] ∧
    submitted (fun i => i != 1) 0 ["https://a".toList, "https://b".toList, "https://c".toList]
      = ["https://a".toList, "https://c".toList] ∧
    getNewURLs (processURLs (fun i => i != 1) (fun _ => .ok) 0
      ["https://a".toList, "https://b".toList, "https://c".toList]
      ({ urlsFile := some (File.plain "https://a\nhttps://b\nhttps://c\n".toList),
         processedFile := some (File.plain "https://x".toList) }, [])).1
      = .ok ["https://a".toList, "https://b".toList] :=
  ⟨rfl, rfl, rfl⟩

/-- C9, amended. When the initial ledger file is absent, empty or ends with a
line feed and every ledger write of the run succeeds, a fresh `getNewURLs` after
the run returns, in candidate order, exactly the entries of the run's work queue
whose URL had no successful submission during the run.  With three distinct
queued URLs, the second submission failing and the other two succeeding, the next
`getNewURLs` returns exactly the second. -/
theorem partial_run_recovery :
    (∀ (fs : FS) (driver : Nat → Bool) (disk : Nat → WriteOutcome) (queue : List Str),
      Terminated (contentOf fs.processedFile) → getNewURLs fs = .ok queue →
      (∀ i, i < queue.length → driver i = true → disk i = .ok) →
      getNewURLs (processURLs driver disk 0 queue (fs, [])).1 =
        .ok (queue.filter (fun u => u ∉ submitted driver 0 queue))) ∧
    (∀ (fs : FS) (driver : Nat → Bool) (disk : Nat → WriteOutcome) (a b c : Str),
      Terminated (contentOf fs.processedFile) → getNewURLs fs = .ok [a, b, c] →
      a ≠ b → b ≠ c → a ≠ c →
      driver 0 = true → driver 1 = false → driver 2 = true →
      disk 0 = .ok → disk 2 = .ok →
      getNewURLs (processURLs driver disk 0 [a, b, c] (fs, [])).1 = .ok [b]) := by
  have main : ∀ (fs : FS) (driver : Nat → Bool) (disk : Nat → WriteOutcome)
      (queue : List Str),
      Terminated (contentOf fs.processedFile) → getNewURLs fs = .ok queue →
      (∀ i, i < queue.length → driver i = true → disk i = .ok) →
      getNewURLs (processURLs driver disk 0 queue (fs, [])).1 =
        .ok (queue.filter (fun u => u ∉ submitted driver 0 queue)) := by
    intro fs driver disk queue hT hq hd
    obtain ⟨L, P, hL, hP, rfl⟩ := getNewURLs_ok_inv fs queue hq
    rw [processURLs_fs driver disk _ 0 fs [] (by simpa using hd)]
    have hS : ∀ u ∈ submitted driver 0 (resolveSpec L P), CleanLine u ∧ TrimSpace u = u :=
      fun u hu => resolveSpec_clean _ L P hL u (submitted_subset driver 0 _ hu)
    rw [getNewURLs_ok (markAll _ fs) L (P ++ submitted driver 0 (resolveSpec L P))
      (by rw [markAll_urlsFile]; exact hL)
      (ledgerLines_markAll _ fs P hT hP (fun u hu => (hS u hu).1)),
      resolveSpec_append L P _ (fun u hu => (hS u hu).2)]
  refine ⟨main, ?_⟩
  intro fs driver disk a b c hT hq hab hbc hac d0 d1 d2 w0 w2
  rw [main fs driver disk [a, b, c] hT hq]
  · have : submitted driver 0 [a, b, c] = [a, c] := by
      simp [submitted_cons, submitted_nil, d0, d1, d2]
    rw [this]
    simp [List.filter_cons, hab, hbc, hac, Ne.symm hab, Ne.symm hbc, Ne.symm hac]
  · intro i hi hdi
    have hi3 : i < 3 := by simpa using hi
    interval_cases i
    · exact w0
    · rw [d1] at hdi; cases hdi
    · exact w2

/-- Witness of C9: three queued URLs against an absent ledger, the second
submission fails. -/
theorem partial_run_recovery_witness :
    getNewURLs (processURLs (fun i => i != 1) (fun _ => .ok) 0
      ["https://a".toList, "https://b".toList, "https://c".toList]
      ({ urlsFile := some (File.plain "https://a\nhttps://b\nhttps://c\n".toList),
         processedFile := none }, [])).1
      = .ok ["https://b".toList] :=
  partial_run_recovery.2
    { urlsFile := some (File.plain "https://a\nhttps://b\nhttps://c\n".toList),
      processedFile := none }
    (fun i => i != 1) (fun _ => .ok) _ _ _ (by decide) rfl (by decide) (by decide) (by decide)
    rfl rfl rfl rfl rfl

/-- Counterexample to C10 as stated: a URL of 65536 letters `a` holds no line
feed and does not end with a carriage return; `markAsProcessed` writes it to an
absent ledger without error, and `readLines` on the ledger then fails with
`bufio.ErrTooLong` and returns no line. -/
theorem ledger_roundtrip_counterexample :
    '\n' ∉ List.replicate 65536 'a' ∧
    (List.replicate 65536 'a').getLast? ≠ some '\r' ∧
    (markAsProcessed .ok (List.replicate 65536 'a')
      { urlsFile := none, processedFile := none }).2 = none ∧
    readLines (markAsProcessed .ok (List.replicate 65536 'a')
      { urlsFile := none, processedFile := none }).1.processedFile = .error .tooLong := by
  have h1 : '\n' ∉ List.replicate 65536 'a' := by
    rw [List.mem_replicate]
    exact fun h => absurd h.2 (by decide)
  refine ⟨h1, ?_, rfl, readLines_long _ h1 ?_⟩
  · rw [List.getLast?_replicate]
    simp
  · rw [byteLen_replicate]
    exact Nat.le_refl _

/-- C10, amended. Starting from an absent or empty ledger file, after
successful calls `markAsProcessed u1`, ..., `markAsProcessed un` the file content
is `u1 "\n" ... un "\n"`, which is empty or ends with a line feed; and when
the file exists by then and every URL holds no line feed, does not end with a
carriage return and is shorter than 65536 bytes, `readLines` on the file returns
exactly `[u1, ..., un]`. -/
theorem ledger_roundtrip :
    (∀ (fs : FS) (urls : List Str),
      (fs.processedFile = none ∨ fs.processedFile = some (File.plain [])) →
      contentOf (markAll urls fs).processedFile = ledgerText urls ∧
        Terminated (ledgerText urls)) ∧
    (∀ (fs : FS) (urls : List Str),
      (fs.processedFile = none ∨ fs.processedFile = some (File.plain [])) →
      (urls ≠ [] ∨ fs.processedFile ≠ none) →
      (∀ u ∈ urls, '\n' ∉ u ∧ u.getLast? ≠ some '\r' ∧ byteLen u < 65536) →
      readLines (markAll urls fs).processedFile = .ok urls) := by
  constructor
  · intro fs urls h0
    refine ⟨?_, terminated_ledgerText urls⟩
    rw [markAll_content]
    rcases h0 with h | h <;> rw [h] <;> rfl
  · intro fs urls h0 hn hu
    have hT : Terminated (contentOf fs.processedFile) := by
      rcases h0 with h | h <;> rw [h] <;> exact Or.inl rfl
    have hP : ledgerLines fs.processedFile = .ok [] := by
      rcases h0 with h | h <;> rw [h] <;> rfl
    have hS : ∀ u ∈ urls, CleanLine u := by
      intro u hmem
      obtain ⟨a, b, c⟩ := hu u hmem
      refine ⟨a, ?_, c⟩
      unfold dropCR
      rw [if_neg b]
    have hne : (markAll urls fs).processedFile ≠ none := by
      cases urls with
      | nil =>
        rcases hn with h | h
        · exact absurd rfl h
        · exact h
      | cons u S =>
        rw [markAll_processedFile _ _ (by simp)]
        simp [appended]
    rw [← ledgerLines_of_ne_none _ hne, ledgerLines_markAll urls fs [] hT hP hS]
    rfl

/-- Witness of C10: two URLs written to an absent ledger and read back. -/
theorem ledger_roundtrip_witness :
    readLines (markAll ["https://a".toList, "https://b".toList]
      { urlsFile := none, processedFile := none }).processedFile
      = .ok ["https://a".toList, "https://b".toList] :=
  ledger_roundtrip.2 { urlsFile := none, processedFile := none }
    ["https://a".toList, "https://b".toList] (Or.inl rfl) (Or.inl (by decide)) (by decide)

end NotebookLM
